import Mathlib

/-
  Verification development for the emdofi domain-uncovering engine
  (src/emdofi/core.py).

  The Python code is shallowly embedded over `List Char`:
  - Python strings are `List Char` (written `"...".data` at the statement
    surface);
  - the `scheme` dictionaries (position → character) are association lists
    `List (Nat × Char)` with first-match lookup, which is how they are built
    (`scheme_builder` produces strictly increasing keys) and read;
  - fallible Python code (raising) returns `Except PyErr _`;
  - `dict(zip(keys, values))` is modelled by left-to-right upsert into an
    association list, which reproduces CPython dict insertion-order
    semantics (an existing key keeps its position, its value is updated).
-/

namespace Emdofi

set_option autoImplicit false

/-- Python exception kinds that the embedded code can raise. -/
inductive PyErr where
  | typeError (msg : String)
  | valueError (msg : String)
  | keyError
  | jsonDecodeError
  deriving DecidableEq, Repr

/-- `true` exactly on the `.error` constructor ("the call raised"). -/
def exceptIsErr {α : Type} : Except PyErr α → Bool
  | .error _ => true
  | .ok _ => false

instance instDecEqExcept {ε α : Type} [DecidableEq ε] [DecidableEq α] :
    DecidableEq (Except ε α) := fun x y =>
  match x, y with
  | .error a, .error b =>
    match decEq a b with
    | isTrue h => isTrue (h ▸ rfl)
    | isFalse h => isFalse (fun hc => h (Except.error.inj hc))
  | .error _, .ok _ => isFalse (fun hc => Except.noConfusion hc)
  | .ok _, .error _ => isFalse (fun hc => Except.noConfusion hc)
  | .ok a, .ok b =>
    match decEq a b with
    | isTrue h => isTrue (h ▸ rfl)
    | isFalse h => isFalse (fun hc => h (Except.ok.inj hc))

/-- Python `str.split(sep)` for a single-character separator:
`splitChar '.' "a.b".data = ["a".data, "b".data]`, and the empty string
splits into `[[]]`, as in Python. -/
def splitChar (sep : Char) : List Char → List (List Char)
  | [] => [[]]
  | c :: rest =>
    match splitChar sep rest with
    | [] => [[]]
    | h :: t => if c = sep then [] :: h :: t else (c :: h) :: t

/-- Python `enumerate`, starting at index `n`. -/
def enumFromAux (n : Nat) : List Char → List (Nat × Char)
  | [] => []
  | c :: rest => (n, c) :: enumFromAux (n + 1) rest

/-- Python dict lookup `d[k]` on the association-list model: first entry
with the key, `none` when absent (a `KeyError` site in Python). -/
def pyDictGet (k : Nat) : List (Nat × Char) → Option Char
  | [] => none
  | (key, v) :: rest => if key = k then some v else pyDictGet k rest

/-- `scheme_builder` (core.py lines 12-25): mapping from zero-based index to
character, keeping only indices whose character is not a censored one.
`{x: char for x, char in enumerate(domain) if char not in censored_chars}`. -/
def scheme_builder (domain : List Char) (censored_chars : List Char) : List (Nat × Char) :=
  (enumFromAux 0 domain).filter (fun p => decide (p.2 ∉ censored_chars))

/-- `CensoredDomain` (core.py lines 27-44): the censored query with its
scheme, computed in `__post_init__`. -/
structure CensoredDomain where
  domain : List Char
  censored_chars : List Char
  scheme : List (Nat × Char)
  deriving DecidableEq, Repr

/-- `CensoredDomain.__init__` + `__post_init__`. -/
def mkCensoredDomain (domain : List Char) (censored_chars : List Char) : CensoredDomain :=
  { domain := domain
    censored_chars := censored_chars
    scheme := scheme_builder domain censored_chars }

/-- Character class `[a-z0-9]` of `_re_pattern` (core.py line 10). -/
def isLowerAlnum (c : Char) : Bool :=
  (decide ('a' ≤ c) && decide (c ≤ 'z')) || (decide ('0' ≤ c) && decide (c ≤ '9'))

/-- Character class `[a-z0-9-]` of `_re_pattern`. -/
def isLabelChar (c : Char) : Bool :=
  isLowerAlnum c || decide (c = '-')

/-- Shared core of both label shapes of `_re_pattern`: all characters in
`[a-z0-9-]`, first and last characters in `[a-z0-9]` (the defaults make the
empty list fail). -/
def labelCore (l : List Char) : Bool :=
  l.all isLabelChar && isLowerAlnum (l.headD '-') && isLowerAlnum (l.getLastD '-')

/-- A non-final label of `_re_pattern`:
`[a-z0-9](?:[a-z0-9-]{0,61}[a-z0-9])?` — length 1 to 63, characters in
`[a-z0-9-]`, first and last in `[a-z0-9]`. -/
def nonFinalLabelOk (l : List Char) : Bool :=
  decide (1 ≤ l.length) && decide (l.length ≤ 63) && labelCore l

/-- The final (TLD) label of `_re_pattern`: `[a-z0-9][a-z0-9-]{0,61}[a-z0-9]`
— length 2 to 63, characters in `[a-z0-9-]`, first and last in `[a-z0-9]`. -/
def tldLabelOk (l : List Char) : Bool :=
  decide (2 ≤ l.length) && decide (l.length ≤ 63) && labelCore l

/-- The language of `_re_pattern` without the `$`-before-trailing-newline
allowance: `^(?:[a-z0-9](?:[a-z0-9-]{0,61}[a-z0-9])?\.)+[a-z0-9][a-z0-9-]{0,61}[a-z0-9]$`.
Because neither label shape can contain a literal dot, a string is in the
language exactly when splitting it on dots yields at least two parts, every
part but the last matching the non-final label shape, the last matching the
TLD shape. -/
def reCoreMatch (s : List Char) : Bool :=
  decide (2 ≤ (splitChar '.' s).length)
    && (splitChar '.' s).dropLast.all nonFinalLabelOk
    && tldLabelOk ((splitChar '.' s).getLastD [])

/-- `bool(re.match(_re_pattern, s))`: in Python (without `re.MULTILINE`) the
`$` anchor matches at the end of the string or just before a newline that
ends the string, so the pattern also accepts a matching string followed by a
single trailing `'\n'`. -/
def reFullMatchPy (s : List Char) : Bool :=
  reCoreMatch s || (decide (s.getLastD ' ' = '\n') && reCoreMatch s.dropLast)

/-- The validity computation of `SingleDomain.__post_init__` (core.py lines
64-71): `0 < domain.count(".") < 4` and the regex matches; otherwise
invalid. -/
def pyValid (s : List Char) : Bool :=
  if decide (0 < s.count '.') && decide (s.count '.' < 4) then reFullMatchPy s else false

/-- `SingleDomain` (core.py lines 46-83): a catalog entry with its derived
fields. Python dataclass equality compares the declared fields `domain` and
`valid`; `lenght` [sic] and `scheme` are functions of `domain`, so structure
equality on `mkSingleDomain`-built values coincides with Python equality. -/
structure SingleDomain where
  domain : List Char
  valid : Bool
  lenght : Nat
  scheme : List (Nat × Char)
  deriving DecidableEq, Repr

/-- `SingleDomain.__init__` + `__post_init__`: with `valid=None` the
validity is computed from the grammar; a caller-supplied boolean is kept
as-is (no validation runs). -/
def mkSingleDomain (domain : List Char) (valid : Option Bool) : SingleDomain :=
  { domain := domain
    valid := match valid with
      | some b => b
      | none => pyValid domain
    lenght := domain.length
    scheme := scheme_builder domain [] }

/-- The comparison loop of `SingleDomain.match` (core.py lines 100-104):
`for key, value in censored_domain.scheme.items(): if self.scheme[key] != value: break`
with the `for`/`else` returning `True` on exhaustion; the indexing
`self.scheme[key]` raises `KeyError` when the key is absent. -/
def matchLoop : List (Nat × Char) → List (Nat × Char) → Except PyErr Bool
  | [], _ => .ok true
  | (key, value) :: rest, selfScheme =>
    match pyDictGet key selfScheme with
    | none => .error .keyError
    | some ch => if ch = value then matchLoop rest selfScheme else .ok false

/-- `SingleDomain.match` (core.py lines 85-106), with the possible
`KeyError` of `self.scheme[key]` made explicit. The length guard
`len(censored_domain) == self.lenght` is evaluated before any scheme
indexing. -/
def SingleDomain.matchE (self : SingleDomain) (censored_domain : CensoredDomain) : Except PyErr Bool :=
  if censored_domain.domain.length = self.lenght then
    matchLoop censored_domain.scheme self.scheme
  else
    .ok false

/-- The boolean value `SingleDomain.match` returns; a raised `KeyError` is
mapped to `false` (the accompanying theorems show the error branch is
unreachable for objects built by the constructors). -/
def SingleDomain.matchB (self : SingleDomain) (censored_domain : CensoredDomain) : Bool :=
  match self.matchE censored_domain with
  | .ok b => b
  | .error _ => false

/-- CPython dict insertion into an association list: updating an existing
key keeps its position in the insertion order, a new key is appended. This
is the semantics of building `dict(zip(keys, values))` left to right. -/
def dictUpsert (acc : List (SingleDomain × Bool)) (k : SingleDomain) (v : Bool) :
    List (SingleDomain × Bool) :=
  if acc.any (fun p => decide (p.1 = k)) then
    acc.map (fun p => if p.1 = k then (k, v) else p)
  else
    acc ++ [(k, v)]

/-- `results = dict(zip(self.domains, run(match_all())))` (core.py line
218): the per-candidate boolean results of `SingleDomain.match` (computed in
catalog order by `asyncio.gather`) keyed by the candidates. -/
def matchResults (domains : List SingleDomain) (q : CensoredDomain) :
    List (SingleDomain × Bool) :=
  domains.foldl (fun acc d => dictUpsert acc d (d.matchB q)) []

/-- The query normalization of `DomainFinder.match` (core.py lines
204-212): a string query is stripped of any local part
(`query.split("@")[-1]`) and wrapped into a `CensoredDomain` with the
censoring characters; a `CensoredDomain` query is used as-is. -/
def normalizeQuery (censoring_chars : List Char)
    (query : Sum (List Char) CensoredDomain) : CensoredDomain :=
  match query with
  | .inl s => mkCensoredDomain ((splitChar '@' s).getLastD []) censoring_chars
  | .inr c => c

/-- `DomainFinder.match` (core.py lines 190-222), as a function of the
fields `domains` and `censoring_chars`: `full=True` returns the
whole dict, `full=False` the keys whose value is `True`, in dict order. -/
def DomainFinder.matchQuery (domains : List SingleDomain) (censoring_chars : List Char)
    (query : Sum (List Char) CensoredDomain) (full : Bool) :
    Sum (List SingleDomain) (List (SingleDomain × Bool)) :=
  let q := normalizeQuery censoring_chars query
  let results := matchResults domains q
  if full then .inr results else .inl ((results.filter (fun p => p.2)).map (fun p => p.1))

/-- The body of `DomainFinder.change_censoring_chars` (core.py lines
179-188) on a var-positional tuple of strings: an empty tuple falls back to
`"*"`; each string is decomposed into its characters (`result += list(chars)`)
and the result deduplicated (`list(set(result))`; the order of a Python set
is unspecified and only membership is used downstream, so the deduplicated
list stands in for it). -/
def changeCensoringChars (args : List (List Char)) : List Char :=
  ((if args.isEmpty then [['*']] else args).flatten).dedup

/-- The Python parameter list of a function: named (positional-or-keyword)
parameters and an optional var-positional (`*args`) parameter. -/
structure PyParams where
  positional : List String
  vararg : Option String
  deriving DecidableEq, Repr

/-- CPython keyword-argument binding: a keyword argument binds only to a
named parameter of the callee; in particular a name equal to the
var-positional parameter name is still an unexpected keyword argument. -/
def kwargsAccepted (ps : PyParams) (kwnames : List String) : Bool :=
  kwnames.all (fun n => ps.positional.contains n)

/-- The signature of `DomainFinder.change_censoring_chars` (core.py lines
159-162): `def change_censoring_chars(self, *censoring_chars)`. -/
def change_censoring_chars_params : PyParams :=
  { positional := ["self"], vararg := some "censoring_chars" }

/-- The wrapping and filtering of the `domains` list in
`DomainFinder.__post_init__` (core.py lines 141-145): plain strings become
`SingleDomain`s (validity computed), existing `SingleDomain`s are kept
as-is; with `keep_only_valid_domains` only entries whose stored `valid`
field is `True` are retained. -/
def postInitDomains (ds : List (Sum (List Char) SingleDomain)) (keep_only_valid_domains : Bool) :
    List SingleDomain :=
  let wrapped := ds.map (fun d =>
    match d with
    | .inl s => mkSingleDomain s none
    | .inr dom => dom)
  if keep_only_valid_domains then wrapped.filter (fun d => d.valid) else wrapped

/-- `DomainFinder` (core.py lines 108-157) after a completed
`__post_init__` (the field `_x` set to `0` on line 150 is kept as `x`). -/
structure DomainFinder where
  domains : List SingleDomain
  censoring_chars : List Char
  x : Nat
  deriving DecidableEq, Repr

/-- `DomainFinder.__init__` + `__post_init__` (core.py lines 137-150):
`domains=None` raises `ValueError`; otherwise the list is wrapped and
filtered, and then line 147 calls
`self.change_censoring_chars(censoring_chars=self.censoring_chars or "*")`
— a keyword argument whose name matches only the var-positional parameter
of `change_censoring_chars`, which CPython rejects with a `TypeError`. The
`.ok` branch spells out what a successful call would have produced; it is
unreachable (see the C2 theorem). -/
def mkDomainFinder (domains : Option (List (Sum (List Char) SingleDomain)))
    (censoring_chars : Option (List (List Char))) (keep_only_valid_domains : Bool) :
    Except PyErr DomainFinder :=
  match domains with
  | none => .error (.valueError "domains argument in DomainFinder must be a list of str")
  | some ds =>
    let doms := postInitDomains ds keep_only_valid_domains
    if kwargsAccepted change_censoring_chars_params ["censoring_chars"] then
      .ok { domains := doms
            censoring_chars := changeCensoringChars
              (match censoring_chars with
               | none => [['*']]
               | some l => l)
            x := 0 }
    else
      .error (.typeError "change_censoring_chars got an unexpected keyword argument censoring_chars")

/-- JSON whitespace accepted by Python `json.loads` between tokens. -/
def jsonWs (c : Char) : Bool :=
  decide (c = ' ') || decide (c = '\t') || decide (c = '\n') || decide (c = '\r')

/-- Scan a JSON string body after the opening quote, up to the closing
quote. Escape sequences are not modelled (the inputs at issue contain
none); a backslash makes the parse fail. -/
def scanJString : List Char → Option (List Char × List Char)
  | [] => none
  | c :: rest =>
    if c = '"' then some ([], rest)
    else if c = '\\' then none
    else (scanJString rest).map (fun p => (c :: p.1, p.2))

/-- After one array item: either `]` (then only trailing whitespace may
remain) or `,` followed by the next string item. `fuel` bounds the
recursion; each step consumes at least one character, so `length + 1` fuel
suffices. -/
def parseAfterItem (fuel : Nat) (l : List Char) (acc : List (List Char)) :
    Option (List (List Char)) :=
  match fuel with
  | 0 => none
  | fuel + 1 =>
    match l.dropWhile jsonWs with
    | ']' :: r => if (r.dropWhile jsonWs).isEmpty then some acc.reverse else none
    | ',' :: r =>
      match r.dropWhile jsonWs with
      | '"' :: r2 =>
        match scanJString r2 with
        | some (s, r3) => parseAfterItem fuel r3 (s :: acc)
        | none => none
      | _ => none
    | _ => none

/-- Python `json.loads` restricted to the shapes `DomainFinder.loads` feeds
it with: a JSON array of escape-free strings, with arbitrary surrounding
whitespace (`json.loads` itself skips leading whitespace). Anything else is
a decode error; a non-string array element is also rejected here (in Python
it would instead crash later inside `SingleDomain.__post_init__` — either
way the load never returns normally). -/
def jsonLoadsStrArray (l : List Char) : Except PyErr (List (List Char)) :=
  match l.dropWhile jsonWs with
  | '[' :: r =>
    match r.dropWhile jsonWs with
    | ']' :: r2 => if (r2.dropWhile jsonWs).isEmpty then .ok [] else .error .jsonDecodeError
    | '"' :: r2 =>
      match scanJString r2 with
      | some (s, r3) =>
        match parseAfterItem (r3.length + 1) r3 [s] with
        | some items => .ok items
        | none => .error .jsonDecodeError
      | none => .error .jsonDecodeError
    | _ => .error .jsonDecodeError
  | _ => .error .jsonDecodeError

/-- The source-shape dispatch of `DomainFinder.loads` (core.py lines
244-247): `strcontent.startswith("[")` — on the raw, untrimmed content —
selects `json.loads`; otherwise the content is split on newlines, one
domain per line. -/
def loadsParse (s : List Char) : Except PyErr (List (List Char)) :=
  if s.headD ' ' = '[' then jsonLoadsStrArray s else .ok (splitChar '\n' s)

/-- `DomainFinder.loads` (core.py lines 224-252): parse the content, wrap
every raw string into a `SingleDomain`, construct the finder (with the
default `keep_only_valid_domains=True`). -/
def DomainFinder.loads (strcontent : List Char) (censoring_chars : List (List Char)) :
    Except PyErr DomainFinder :=
  (loadsParse strcontent).bind (fun datas =>
    mkDomainFinder (some (datas.map (fun d => .inr (mkSingleDomain d none))))
      (some censoring_chars) true)

/-- `DomainFinder.load` (core.py lines 254-270): `loads` of the text the
reader object yields. -/
def DomainFinder.load (readContent : List Char) (censoring_chars : List (List Char)) :
    Except PyErr DomainFinder :=
  DomainFinder.loads readContent censoring_chars

/-- `DomainFinder.load_default` (core.py lines 272-285): `load` of the
bundled domain file, whose text is passed in here as `fileContent`. -/
def DomainFinder.load_default (fileContent : List Char) (censoring_chars : List (List Char)) :
    Except PyErr DomainFinder :=
  DomainFinder.load fileContent censoring_chars

/-- The module-level `match` function (core.py lines 287-296): load the
default catalog, then match the query string in matches-only mode. -/
def moduleMatch (fileContent : List Char) (query : List Char)
    (censored_chars : List (List Char)) :
    Except PyErr (Sum (List SingleDomain) (List (SingleDomain × Bool))) :=
  (DomainFinder.load_default fileContent censored_chars).bind (fun df =>
    .ok (DomainFinder.matchQuery df.domains df.censoring_chars (.inl query) false))

/-- Replacing the masked positions of a string with the character `c`:
the patterns of claim C3, "obtained from D by replacing any subset of its
positions with a censoring character". -/
def censorAt (s : List Char) (mask : Nat → Bool) (c : Char) : List Char :=
  (enumFromAux 0 s).map (fun p => if mask p.1 then c else p.2)

/-- Modelled from the claim wording of C4 (spec section 4.2): a label of
1-63 characters, all lowercase alphanumerics or hyphens, not starting or
ending with a hyphen. -/
def claimLabel (l : List Char) : Prop :=
  1 ≤ l.length ∧ l.length ≤ 63 ∧ (∀ c ∈ l, isLabelChar c = true) ∧
    l.headD '-' ≠ '-' ∧ l.getLastD '-' ≠ '-'

/-- Modelled from the claim wording of C4: the final (TLD) label, 2-63
characters, not starting or ending with a hyphen. -/
def claimTld (l : List Char) : Prop :=
  2 ≤ l.length ∧ l.length ≤ 63 ∧ (∀ c ∈ l, isLabelChar c = true) ∧
    l.headD '-' ≠ '-' ∧ l.getLastD '-' ≠ '-'

/-- Modelled from the claim wording of C4: the label grammar — dot-separated
labels (at least one non-final label plus the final label), each as
described. -/
def claimGrammar (s : List Char) : Prop :=
  2 ≤ (splitChar '.' s).length ∧
    (∀ l ∈ (splitChar '.' s).dropLast, claimLabel l) ∧
    claimTld ((splitChar '.' s).getLastD [])

/-- Modelled from the claim wording of C4: valid exactly when the string has
1 to 3 dots and matches the label grammar. -/
def claimValid (s : List Char) : Prop :=
  (1 ≤ s.count '.' ∧ s.count '.' ≤ 3) ∧ claimGrammar s

/-- Key-list counterpart of `dictUpsert`: CPython dict key order. -/
def keyInsert (ks : List SingleDomain) (d : SingleDomain) : List SingleDomain :=
  if d ∈ ks then ks else ks ++ [d]

/-- The dict keys of `matchResults`, in insertion order: catalog order with
later duplicates dropped. -/
def pyKeys (l : List SingleDomain) : List SingleDomain :=
  l.foldl keyInsert []

instance decidableClaimLabel (l : List Char) : Decidable (claimLabel l) := by
  unfold claimLabel; exact inferInstance

instance decidableClaimTld (l : List Char) : Decidable (claimTld l) := by
  unfold claimTld; exact inferInstance

instance decidableClaimGrammar (s : List Char) : Decidable (claimGrammar s) := by
  unfold claimGrammar; exact inferInstance

instance decidableClaimValid (s : List Char) : Decidable (claimValid s) := by
  unfold claimValid; exact inferInstance

theorem enumFromAux_length (s : List Char) : ∀ n : Nat, (enumFromAux n s).length = s.length := by
  induction s with
  | nil => intro n; rfl
  | cons c rest ih => intro n; simp [enumFromAux, ih]

theorem pyDictGet_enumFromAux (s : List Char) :
    ∀ (n i : Nat), pyDictGet (n + i) (enumFromAux n s) = s[i]? := by
  induction s with
  | nil => intro n i; rfl
  | cons c rest ih =>
    intro n i
    cases i with
    | zero => simp [enumFromAux, pyDictGet]
    | succ j =>
      have hne : ¬ (n = n + (j + 1)) := by omega
      simp only [enumFromAux, pyDictGet, if_neg hne]
      rw [show n + (j + 1) = (n + 1) + j by omega, ih (n + 1) j]
      simp

theorem mem_enumFromAux (s : List Char) :
    ∀ (n k : Nat) (ch : Char), (k, ch) ∈ enumFromAux n s ↔ ∃ i, k = n + i ∧ s[i]? = some ch := by
  induction s with
  | nil => intro n k ch; simp [enumFromAux]
  | cons c rest ih =>
    intro n k ch
    simp only [enumFromAux, List.mem_cons, ih (n + 1), Prod.mk.injEq]
    constructor
    · rintro (⟨hk, hc⟩ | ⟨i, hk, hget⟩)
      · exact ⟨0, by omega, by simp [hc]⟩
      · exact ⟨i + 1, by omega, by simpa using hget⟩
    · rintro ⟨i, hk, hget⟩
      cases i with
      | zero => left; exact ⟨by omega, by simpa using hget.symm⟩
      | succ j => right; exact ⟨j, by omega, by simpa using hget⟩

theorem scheme_builder_no_censor (s : List Char) : scheme_builder s [] = enumFromAux 0 s := by
  simp [scheme_builder]

theorem pyDictGet_dense (s : List Char) (k : Nat) :
    pyDictGet k (scheme_builder s []) = s[k]? := by
  rw [scheme_builder_no_censor]
  have := pyDictGet_enumFromAux s 0 k
  simpa using this

theorem mem_scheme_builder (s cc : List Char) (k : Nat) (ch : Char) :
    (k, ch) ∈ scheme_builder s cc ↔ s[k]? = some ch ∧ ch ∉ cc := by
  simp only [scheme_builder, List.mem_filter, mem_enumFromAux, decide_eq_true_eq]
  constructor
  · rintro ⟨⟨i, hk, hget⟩, hni⟩
    exact ⟨by simpa [hk] using hget, hni⟩
  · rintro ⟨hget, hni⟩
    exact ⟨⟨k, by omega, hget⟩, hni⟩

theorem matchLoop_ok_true_iff (es ds : List (Nat × Char)) :
    matchLoop es ds = .ok true ↔ ∀ k ch, (k, ch) ∈ es → pyDictGet k ds = some ch := by
  induction es with
  | nil => simp [matchLoop]
  | cons p rest ih =>
    obtain ⟨key, value⟩ := p
    cases hget : pyDictGet key ds with
    | none =>
      simp only [matchLoop, hget]
      constructor
      · intro h; cases h
      · intro h
        have := h key value (List.mem_cons_self _ _)
        rw [hget] at this; cases this
    | some ch =>
      by_cases hch : ch = value
      · subst hch
        simp only [matchLoop, hget, if_true]
        rw [ih]
        constructor
        · intro h k c hm
          rcases List.mem_cons.mp hm with heq | hrest
          · injection heq with h1 h2
            subst h1; subst h2; exact hget
          · exact h k c hrest
        · intro h k c hm
          exact h k c (List.mem_cons_of_mem _ hm)
      · simp only [matchLoop, hget, if_neg hch]
        constructor
        · intro h; cases h
        · intro h
          have := h key value (List.mem_cons_self _ _)
          rw [hget] at this
          injection this with this
          exact absurd this hch

theorem matchLoop_ne_error (es ds : List (Nat × Char))
    (h : ∀ k ch, (k, ch) ∈ es → ∃ a, pyDictGet k ds = some a) :
    ∃ b, matchLoop es ds = .ok b := by
  induction es with
  | nil => exact ⟨true, rfl⟩
  | cons p rest ih =>
    obtain ⟨key, value⟩ := p
    obtain ⟨a, ha⟩ := h key value (List.mem_cons_self _ _)
    simp only [matchLoop, ha]
    by_cases hav : a = value
    · rw [if_pos hav]
      exact ih (fun k c hm => h k c (List.mem_cons_of_mem _ hm))
    · exact ⟨false, by rw [if_neg hav]⟩

theorem matchB_eq_true_iff (d : SingleDomain) (c : CensoredDomain) :
    d.matchB c = true ↔
      (c.domain.length = d.lenght ∧
        ∀ k ch, (k, ch) ∈ c.scheme → pyDictGet k d.scheme = some ch) := by
  unfold SingleDomain.matchB SingleDomain.matchE
  by_cases hlen : c.domain.length = d.lenght
  · rw [if_pos hlen]
    have hiff := matchLoop_ok_true_iff c.scheme d.scheme
    cases hE : matchLoop c.scheme d.scheme with
    | ok b =>
      cases b with
      | true => simpa [hlen] using hiff.mp hE
      | false =>
        simp only [Bool.false_eq_true, false_iff]
        rintro ⟨-, hall⟩
        rw [hiff.mpr hall] at hE
        cases hE
    | error e =>
      simp only [Bool.false_eq_true, false_iff]
      rintro ⟨-, hall⟩
      rw [hiff.mpr hall] at hE
      cases hE
  · rw [if_neg hlen]
    simp [hlen]

theorem matchE_ok (dRaw : List Char) (v : Option Bool) (pRaw cc : List Char) :
    ∃ b, (mkSingleDomain dRaw v).matchE (mkCensoredDomain pRaw cc) = Except.ok b := by
  simp only [SingleDomain.matchE, mkSingleDomain, mkCensoredDomain]
  by_cases hlen : pRaw.length = dRaw.length
  · rw [if_pos hlen]
    apply matchLoop_ne_error
    intro k ch hm
    obtain ⟨hget, -⟩ := (mem_scheme_builder pRaw cc k ch).mp hm
    have hk : k < pRaw.length := by
      obtain ⟨h, -⟩ := List.getElem?_eq_some.mp hget
      exact h
    have hk2 : k < dRaw.length := by omega
    refine ⟨dRaw[k], ?_⟩
    rw [pyDictGet_dense]
    exact List.getElem?_eq_getElem hk2
  · exact ⟨false, by rw [if_neg hlen]⟩

theorem matchE_eq_ok_matchB (dRaw : List Char) (v : Option Bool) (pRaw cc : List Char) :
    (mkSingleDomain dRaw v).matchE (mkCensoredDomain pRaw cc) =
      Except.ok ((mkSingleDomain dRaw v).matchB (mkCensoredDomain pRaw cc)) := by
  obtain ⟨b, hb⟩ := matchE_ok dRaw v pRaw cc
  rw [hb]
  unfold SingleDomain.matchB
  rw [hb]

theorem map_enumFromAux_getElem? (s : List Char) :
    ∀ (n i : Nat) (f : Nat × Char → Char),
      ((enumFromAux n s).map f)[i]? = (s[i]?).map (fun a => f (n + i, a)) := by
  induction s with
  | nil => intro n i f; simp [enumFromAux]
  | cons c rest ih =>
    intro n i f
    cases i with
    | zero => simp [enumFromAux]
    | succ j =>
      simp only [enumFromAux, List.map_cons, List.getElem?_cons_succ]
      rw [ih (n + 1) j f, show n + 1 + j = n + (j + 1) by omega]

theorem censorAt_length (s : List Char) (mask : Nat → Bool) (c : Char) :
    (censorAt s mask c).length = s.length := by
  simp [censorAt, enumFromAux_length]

theorem censorAt_getElem? (s : List Char) (mask : Nat → Bool) (c : Char) (i : Nat) :
    (censorAt s mask c)[i]? = (s[i]?).map (fun a => if mask i then c else a) := by
  unfold censorAt
  rw [map_enumFromAux_getElem? s 0 i]
  simp

theorem matchB_censorAt (dRaw : List Char) (v : Option Bool) (mask : Nat → Bool) (c : Char)
    (cc : List Char) (hc : c ∈ cc) :
    (mkSingleDomain dRaw v).matchB (mkCensoredDomain (censorAt dRaw mask c) cc) = true := by
  rw [matchB_eq_true_iff]
  constructor
  · exact censorAt_length dRaw mask c
  · intro k ch hm
    obtain ⟨hget, hni⟩ := (mem_scheme_builder (censorAt dRaw mask c) cc k ch).mp hm
    rw [censorAt_getElem?] at hget
    cases hdr : dRaw[k]? with
    | none => rw [hdr] at hget; cases hget
    | some a =>
      rw [hdr] at hget
      simp only [Option.map_some'] at hget
      by_cases hmask : mask k
      · rw [if_pos hmask] at hget
        injection hget with h
        exact absurd (h ▸ hc) hni
      · rw [if_neg hmask] at hget
        injection hget with h
        show pyDictGet k (scheme_builder dRaw []) = some ch
        rw [pyDictGet_dense, hdr, h]

theorem dictUpsert_keyed (f : SingleDomain → Bool) (ks : List SingleDomain) (d : SingleDomain) :
    dictUpsert (ks.map (fun k => (k, f k))) d (f d) = (keyInsert ks d).map (fun k => (k, f k)) := by
  unfold dictUpsert keyInsert
  by_cases hmem : d ∈ ks
  · have hany : (ks.map (fun k => (k, f k))).any (fun p => decide (p.1 = d)) = true := by
      rw [List.any_eq_true]
      exact ⟨(d, f d), List.mem_map_of_mem _ hmem, by simp⟩
    rw [if_pos hany, if_pos hmem, List.map_map]
    have hfun : ((fun p : SingleDomain × Bool => if p.1 = d then (d, f d) else p) ∘
        (fun k : SingleDomain => (k, f k))) = (fun k : SingleDomain => (k, f k)) := by
      funext k
      by_cases hk : k = d
      · subst hk; simp
      · simp [hk]
    rw [hfun]
  · have hany : ¬ ((ks.map (fun k => (k, f k))).any (fun p => decide (p.1 = d)) = true) := by
      rw [List.any_eq_true]
      rintro ⟨p, hp, hd⟩
      obtain ⟨k, hk, rfl⟩ := List.mem_map.mp hp
      have hkd : k = d := by simpa using hd
      exact hmem (hkd ▸ hk)
    rw [if_neg hany, if_neg hmem, List.map_append]
    rfl

theorem dictFold_eq_keys (f : SingleDomain → Bool) :
    ∀ (l ks : List SingleDomain),
      l.foldl (fun acc d => dictUpsert acc d (f d)) (ks.map (fun k => (k, f k))) =
        (l.foldl keyInsert ks).map (fun k => (k, f k)) := by
  intro l
  induction l with
  | nil => intro ks; rfl
  | cons d rest ih =>
    intro ks
    simp only [List.foldl_cons, dictUpsert_keyed f ks d, ih (keyInsert ks d)]

theorem matchResults_eq_pyKeys (domains : List SingleDomain) (q : CensoredDomain) :
    matchResults domains q = (pyKeys domains).map (fun k => (k, k.matchB q)) := by
  have h := dictFold_eq_keys (fun d => d.matchB q) domains []
  simpa [matchResults, pyKeys] using h

theorem mem_keyInsert (x d : SingleDomain) (ks : List SingleDomain) :
    x ∈ keyInsert ks d ↔ x ∈ ks ∨ x = d := by
  unfold keyInsert
  by_cases h : d ∈ ks
  · rw [if_pos h]
    constructor
    · exact Or.inl
    · rintro (hx | rfl)
      · exact hx
      · exact h
  · rw [if_neg h]
    simp

theorem mem_foldl_keyInsert (x : SingleDomain) :
    ∀ (l ks : List SingleDomain), x ∈ l.foldl keyInsert ks ↔ x ∈ ks ∨ x ∈ l := by
  intro l
  induction l with
  | nil => intro ks; simp
  | cons d rest ih =>
    intro ks
    rw [List.foldl_cons, ih (keyInsert ks d), mem_keyInsert, List.mem_cons]
    tauto

theorem nodup_foldl_keyInsert :
    ∀ (l ks : List SingleDomain), ks.Nodup → (l.foldl keyInsert ks).Nodup := by
  intro l
  induction l with
  | nil => intro ks h; exact h
  | cons d rest ih =>
    intro ks h
    rw [List.foldl_cons]
    apply ih
    unfold keyInsert
    by_cases hd : d ∈ ks
    · rw [if_pos hd]; exact h
    · rw [if_neg hd]
      rw [List.nodup_append]
      exact ⟨h, List.nodup_singleton d, by simpa [List.disjoint_singleton] using hd⟩

theorem foldl_keyInsert_of_nodup :
    ∀ (l ks : List SingleDomain), l.Nodup → (∀ x ∈ l, x ∉ ks) → l.foldl keyInsert ks = ks ++ l := by
  intro l
  induction l with
  | nil => intro ks _ _; simp
  | cons d rest ih =>
    intro ks hnd hnin
    rw [List.foldl_cons]
    have hd : d ∉ ks := hnin d (List.mem_cons_self _ _)
    have hstep : keyInsert ks d = ks ++ [d] := by unfold keyInsert; rw [if_neg hd]
    rw [hstep, ih (ks ++ [d]) (List.Nodup.of_cons hnd)]
    · simp
    · intro x hx
      rw [List.mem_append]
      rintro (hks | hsingle)
      · exact hnin x (List.mem_cons_of_mem _ hx) hks
      · have hxd : x = d := by simpa using hsingle
        exact (List.nodup_cons.mp hnd).1 (hxd ▸ hx)

theorem pyKeys_nodup (l : List SingleDomain) : (pyKeys l).Nodup :=
  nodup_foldl_keyInsert l [] List.nodup_nil

theorem mem_pyKeys (x : SingleDomain) (l : List SingleDomain) : x ∈ pyKeys l ↔ x ∈ l := by
  simp [pyKeys, mem_foldl_keyInsert]

theorem pyKeys_of_nodup (l : List SingleDomain) (h : l.Nodup) : pyKeys l = l := by
  simpa [pyKeys] using foldl_keyInsert_of_nodup l [] h (by simp)

theorem filter_map_pairs (g : SingleDomain → Bool) :
    ∀ (l : List SingleDomain),
      ((l.map (fun k => (k, g k))).filter (fun p => p.2)).map (fun p => p.1) = l.filter g := by
  intro l
  induction l with
  | nil => rfl
  | cons a rest ih =>
    by_cases h : g a <;> simp [List.filter_cons, h, ih]

theorem filter_eq_single (g : SingleDomain → Bool) (D : SingleDomain) :
    ∀ (l : List SingleDomain), l.Nodup → D ∈ l → g D = true →
      (∀ x ∈ l, x ≠ D → g x = false) → l.filter g = [D] := by
  intro l
  induction l with
  | nil => intro _ h; cases h
  | cons a rest ih =>
    intro hnd hmem hgD hothers
    rcases List.mem_cons.mp hmem with rfl | hrest
    · rw [List.filter_cons_of_pos hgD]
      have hrest_nil : rest.filter g = [] := by
        rw [List.filter_eq_nil_iff]
        intro x hx
        have hxne : x ≠ D := by
          rintro rfl
          exact (List.nodup_cons.mp hnd).1 hx
        simp [hothers x (List.mem_cons_of_mem _ hx) hxne]
      rw [hrest_nil]
    · have hane : a ≠ D := by
        rintro rfl
        exact (List.nodup_cons.mp hnd).1 hrest
      rw [List.filter_cons_of_neg (by simp [hothers a (List.mem_cons_self _ _) hane])]
      exact ih (List.Nodup.of_cons hnd) hrest hgD
        (fun x hx => hothers x (List.mem_cons_of_mem _ hx))

theorem matchB_eq_true_iff_pairs (d : SingleDomain) (c : CensoredDomain) :
    d.matchB c = true ↔
      (c.domain.length = d.lenght ∧ ∀ p ∈ c.scheme, pyDictGet p.1 d.scheme = some p.2) := by
  rw [matchB_eq_true_iff]
  constructor
  · rintro ⟨h1, h2⟩
    exact ⟨h1, fun p hp => h2 p.1 p.2 hp⟩
  · rintro ⟨h1, h2⟩
    exact ⟨h1, fun k ch hm => h2 (k, ch) hm⟩

/-- C1: `SingleDomain.match` accepts a candidate domain D against a censored
pattern P exactly when `len(D) == len(P.value)` and, for every position
present in `P.scheme`, the scheme of D carries exactly the character `P.scheme`
records there. Positions absent from `P.scheme` (the censored ones) appear
in no conjunct, so they impose no constraint, and the right-to-left
direction shows a length mismatch rejects regardless of character
content. -/
theorem c1_single_match_iff (dRaw pRaw : List Char) (v : Option Bool) (cc : List Char) :
    (mkSingleDomain dRaw v).matchB (mkCensoredDomain pRaw cc) = true ↔
      (pRaw.length = dRaw.length ∧
        ∀ p ∈ (mkCensoredDomain pRaw cc).scheme,
          pyDictGet p.1 (mkSingleDomain dRaw v).scheme = some p.2) :=
  matchB_eq_true_iff_pairs _ _

/-- C7: the comparison checks `len(censored_domain) == self.lenght` before
touching `self.scheme[key]`, so on constructor-built values
`SingleDomain.match` never raises a `KeyError`: the fault-explicit
embedding always returns `.ok`. -/
theorem c7_match_never_faults (dRaw pRaw : List Char) (v : Option Bool) (cc : List Char) :
    exceptIsErr ((mkSingleDomain dRaw v).matchE (mkCensoredDomain pRaw cc)) = false := by
  obtain ⟨b, hb⟩ := matchE_ok dRaw v pRaw cc
  rw [hb]
  rfl

/-- C3: when the pattern P is built from a catalog member D by replacing an
arbitrary subset of the positions of D with a censoring character, and no other
candidate in the catalog has the length of D while agreeing with every visible
position of P, then matching in matches-only mode returns exactly `[D]`. -/
theorem c3_unique_candidate (dRaw : List Char) (v : Option Bool)
    (cat : List (List Char × Option Bool)) (cc : List Char) (mask : Nat → Bool) (c : Char)
    (hc : c ∈ cc)
    (hD : mkSingleDomain dRaw v ∈ cat.map (fun p => mkSingleDomain p.1 p.2))
    (hOther : ∀ d ∈ cat.map (fun p => mkSingleDomain p.1 p.2),
      d ≠ mkSingleDomain dRaw v →
      ¬((mkCensoredDomain (censorAt dRaw mask c) cc).domain.length = d.lenght ∧
        ∀ p ∈ (mkCensoredDomain (censorAt dRaw mask c) cc).scheme,
          pyDictGet p.1 d.scheme = some p.2)) :
    DomainFinder.matchQuery (cat.map (fun p => mkSingleDomain p.1 p.2)) cc
      (.inr (mkCensoredDomain (censorAt dRaw mask c) cc)) false =
      .inl [mkSingleDomain dRaw v] := by
  have h2 : ((matchResults (cat.map (fun p => mkSingleDomain p.1 p.2))
        (mkCensoredDomain (censorAt dRaw mask c) cc)).filter (fun p => p.2)).map
          (fun p => p.1) =
      (pyKeys (cat.map (fun p => mkSingleDomain p.1 p.2))).filter
        (fun k => k.matchB (mkCensoredDomain (censorAt dRaw mask c) cc)) := by
    rw [matchResults_eq_pyKeys]
    exact filter_map_pairs _ _
  have h3 : (pyKeys (cat.map (fun p => mkSingleDomain p.1 p.2))).filter
        (fun k => k.matchB (mkCensoredDomain (censorAt dRaw mask c) cc)) =
      [mkSingleDomain dRaw v] := by
    apply filter_eq_single
    · exact pyKeys_nodup _
    · exact (mem_pyKeys _ _).mpr hD
    · exact matchB_censorAt dRaw v mask c cc hc
    · intro x hx hne
      have hxL := (mem_pyKeys x _).mp hx
      have hnot := hOther x hxL hne
      cases hmb : x.matchB (mkCensoredDomain (censorAt dRaw mask c) cc) with
      | false => rfl
      | true => exact absurd ((matchB_eq_true_iff_pairs x _).mp hmb) hnot
  show Sum.inl (((matchResults (cat.map (fun p => mkSingleDomain p.1 p.2))
      (mkCensoredDomain (censorAt dRaw mask c) cc)).filter (fun p => p.2)).map
        (fun p => p.1)) = _
  rw [h2, h3]

/-- Witness for C3: catalog of gmail.com and yahoo.com, pattern g****.**m
censored with the asterisk; only gmail.com matches and the result is
exactly that one-element list. -/
theorem c3_unique_candidate_witness :
    ('*' ∈ ['*']) ∧
    DomainFinder.matchQuery
        ([("gmail.com".data, (none : Option Bool)), ("yahoo.com".data, none)].map
          (fun p => mkSingleDomain p.1 p.2)) ['*']
        (.inr (mkCensoredDomain
          (censorAt "gmail.com".data
            (fun i => decide (i = 1 ∨ i = 2 ∨ i = 3 ∨ i = 4 ∨ i = 6 ∨ i = 7)) '*')
          ['*'])) false =
      .inl [mkSingleDomain "gmail.com".data none] :=
  ⟨by decide,
    c3_unique_candidate "gmail.com".data none
      [("gmail.com".data, none), ("yahoo.com".data, none)] ['*']
      (fun i => decide (i = 1 ∨ i = 2 ∨ i = 3 ∨ i = 4 ∨ i = 6 ∨ i = 7)) '*'
      (by decide) (by decide) (by decide)⟩

/-- C6 (amended): when the catalog entries are pairwise distinct, full-report
mode returns one boolean entry per catalog candidate, in catalog order, and
the report size equals the catalog size. With duplicate entries the dict
built by `dict(zip(...))` collapses equal keys (see the counterexample). -/
theorem c6_full_report_of_nodup (cat : List (List Char × Option Bool)) (cc : List Char)
    (query : Sum (List Char) CensoredDomain)
    (hnd : (cat.map (fun p => mkSingleDomain p.1 p.2)).Nodup) :
    DomainFinder.matchQuery (cat.map (fun p => mkSingleDomain p.1 p.2)) cc query true =
      .inr ((cat.map (fun p => mkSingleDomain p.1 p.2)).map
        (fun d => (d, d.matchB (normalizeQuery cc query)))) ∧
    ((cat.map (fun p => mkSingleDomain p.1 p.2)).map
      (fun d => (d, d.matchB (normalizeQuery cc query)))).length = cat.length := by
  constructor
  · show Sum.inr (matchResults (cat.map (fun p => mkSingleDomain p.1 p.2))
        (normalizeQuery cc query)) = _
    rw [matchResults_eq_pyKeys, pyKeys_of_nodup _ hnd]
  · simp

/-- Witness for C6 (amended) on a two-element duplicate-free catalog. -/
theorem c6_full_report_witness :
    (([("gmail.com".data, (none : Option Bool)), ("yahoo.com".data, none)].map
        (fun p => mkSingleDomain p.1 p.2)).Nodup) ∧
    (DomainFinder.matchQuery
        ([("gmail.com".data, (none : Option Bool)), ("yahoo.com".data, none)].map
          (fun p => mkSingleDomain p.1 p.2)) ['*'] (.inl "g****.**m".data) true =
      .inr (([("gmail.com".data, (none : Option Bool)), ("yahoo.com".data, none)].map
        (fun p => mkSingleDomain p.1 p.2)).map
          (fun d => (d, d.matchB (normalizeQuery ['*'] (.inl "g****.**m".data))))) ∧
    (([("gmail.com".data, (none : Option Bool)), ("yahoo.com".data, none)].map
      (fun p => mkSingleDomain p.1 p.2)).map
        (fun d => (d, d.matchB (normalizeQuery ['*'] (.inl "g****.**m".data))))).length =
      [("gmail.com".data, (none : Option Bool)), ("yahoo.com".data, none)].length) :=
  ⟨by decide,
    c6_full_report_of_nodup [("gmail.com".data, none), ("yahoo.com".data, none)] ['*']
      (.inl "g****.**m".data) (by decide)⟩

/-- C6 counterexample: a catalog holding the same domain twice yields a
full report with a single entry; the claimed equality of report size and
catalog size fails. -/
theorem c6_counterexample :
    DomainFinder.matchQuery
        [mkSingleDomain "gmail.com".data none, mkSingleDomain "gmail.com".data none] ['*']
        (.inl "g****.**m".data) true =
      .inr [(mkSingleDomain "gmail.com".data none, true)] ∧
    [mkSingleDomain "gmail.com".data none, mkSingleDomain "gmail.com".data none].length = 2 := by
  constructor
  · decide
  · rfl

theorem isLowerAlnum_iff_ne_dash (c : Char) (h : isLabelChar c = true) :
    isLowerAlnum c = true ↔ c ≠ '-' := by
  constructor
  · intro ha hcd
    subst hcd
    have : isLowerAlnum '-' = false := by decide
    rw [this] at ha
    cases ha
  · intro hne
    unfold isLabelChar at h
    rw [Bool.or_eq_true] at h
    rcases h with h1 | h2
    · exact h1
    · exact absurd (of_decide_eq_true h2) hne

theorem headD_mem (l : List Char) (d : Char) (h : l ≠ []) : l.headD d ∈ l := by
  cases l with
  | nil => exact absurd rfl h
  | cons a t => simp

theorem getLastD_mem (l : List Char) : ∀ d : Char, l ≠ [] → l.getLastD d ∈ l := by
  induction l with
  | nil => intro d h; exact absurd rfl h
  | cons a t ih =>
    intro d _
    rw [List.getLastD_cons]
    cases t with
    | nil => simp
    | cons b t2 => exact List.mem_cons_of_mem _ (ih a (by simp))

theorem nonFinalLabelOk_props (l : List Char) :
    nonFinalLabelOk l = true ↔
      (1 ≤ l.length ∧ l.length ≤ 63 ∧ (∀ c ∈ l, isLabelChar c = true) ∧
        isLowerAlnum (l.headD '-') = true ∧ isLowerAlnum (l.getLastD '-') = true) := by
  simp [nonFinalLabelOk, labelCore, and_assoc]

theorem tldLabelOk_props (l : List Char) :
    tldLabelOk l = true ↔
      (2 ≤ l.length ∧ l.length ≤ 63 ∧ (∀ c ∈ l, isLabelChar c = true) ∧
        isLowerAlnum (l.headD '-') = true ∧ isLowerAlnum (l.getLastD '-') = true) := by
  simp [tldLabelOk, labelCore, and_assoc]

theorem nonFinalLabelOk_iff (l : List Char) : nonFinalLabelOk l = true ↔ claimLabel l := by
  rw [nonFinalLabelOk_props]
  unfold claimLabel
  constructor
  · rintro ⟨h1, h2, h3, h4, h5⟩
    have hne : l ≠ [] := by
      cases l
      · simp at h1
      · simp
    exact ⟨h1, h2, h3,
      (isLowerAlnum_iff_ne_dash _ (h3 _ (headD_mem l '-' hne))).mp h4,
      (isLowerAlnum_iff_ne_dash _ (h3 _ (getLastD_mem l '-' hne))).mp h5⟩
  · rintro ⟨h1, h2, h3, h4, h5⟩
    have hne : l ≠ [] := by
      cases l
      · simp at h1
      · simp
    exact ⟨h1, h2, h3,
      (isLowerAlnum_iff_ne_dash _ (h3 _ (headD_mem l '-' hne))).mpr h4,
      (isLowerAlnum_iff_ne_dash _ (h3 _ (getLastD_mem l '-' hne))).mpr h5⟩

theorem tldLabelOk_iff (l : List Char) : tldLabelOk l = true ↔ claimTld l := by
  rw [tldLabelOk_props]
  unfold claimTld
  constructor
  · rintro ⟨h1, h2, h3, h4, h5⟩
    have hne : l ≠ [] := by
      cases l
      · simp at h1
      · simp
    exact ⟨h1, h2, h3,
      (isLowerAlnum_iff_ne_dash _ (h3 _ (headD_mem l '-' hne))).mp h4,
      (isLowerAlnum_iff_ne_dash _ (h3 _ (getLastD_mem l '-' hne))).mp h5⟩
  · rintro ⟨h1, h2, h3, h4, h5⟩
    have hne : l ≠ [] := by
      cases l
      · simp at h1
      · simp
    exact ⟨h1, h2, h3,
      (isLowerAlnum_iff_ne_dash _ (h3 _ (headD_mem l '-' hne))).mpr h4,
      (isLowerAlnum_iff_ne_dash _ (h3 _ (getLastD_mem l '-' hne))).mpr h5⟩

theorem reCoreMatch_iff (s : List Char) : reCoreMatch s = true ↔ claimGrammar s := by
  unfold reCoreMatch claimGrammar
  simp only [Bool.and_eq_true, decide_eq_true_eq, List.all_eq_true]
  constructor
  · rintro ⟨⟨h1, h2⟩, h3⟩
    exact ⟨h1, fun l hl => (nonFinalLabelOk_iff l).mp (h2 l hl), (tldLabelOk_iff _).mp h3⟩
  · rintro ⟨h1, h2, h3⟩
    exact ⟨⟨h1, fun l hl => (nonFinalLabelOk_iff l).mpr (h2 l hl)⟩, (tldLabelOk_iff _).mpr h3⟩

/-- C4 (amended): the validator marks a string valid exactly when it has
between 1 and 3 dots and either matches the label grammar of the claim or is a
grammar-matching string followed by one trailing newline — the extra
disjunct is forced by the Python `$` anchor, which also matches just before a
newline ending the string. The concrete vectors of the claim all behave as
stated. -/
theorem c4_validator_amended :
    (∀ s : List Char, pyValid s = true ↔
      ((1 ≤ s.count '.' ∧ s.count '.' ≤ 3) ∧
        (claimGrammar s ∨ (s.getLastD ' ' = '\n' ∧ claimGrammar s.dropLast)))) ∧
    pyValid "gmail.com".data = true ∧
    pyValid "sub.example.co.uk".data = true ∧
    pyValid "nodotdomain".data = false ∧
    pyValid ".leadingdot.com".data = false ∧
    pyValid "-bad.com".data = false ∧
    pyValid "a..b.com".data = false ∧
    pyValid "a.b.c.d.e".data = false := by
  refine ⟨?_, by decide, by decide, by decide, by decide, by decide, by decide, by decide⟩
  intro s
  unfold pyValid reFullMatchPy
  by_cases hdots : (decide (0 < s.count '.') && decide (s.count '.' < 4)) = true
  · rw [if_pos hdots]
    have hd : 1 ≤ s.count '.' ∧ s.count '.' ≤ 3 := by
      simp only [Bool.and_eq_true, decide_eq_true_eq] at hdots
      omega
    simp only [Bool.or_eq_true, Bool.and_eq_true, decide_eq_true_eq, reCoreMatch_iff]
    constructor
    · rintro (h | ⟨h1, h2⟩)
      · exact ⟨hd, Or.inl h⟩
      · exact ⟨hd, Or.inr ⟨h1, h2⟩⟩
    · rintro ⟨-, (h | ⟨h1, h2⟩)⟩
      · exact Or.inl h
      · exact Or.inr ⟨h1, h2⟩
  · rw [if_neg hdots]
    have hd : ¬(1 ≤ s.count '.' ∧ s.count '.' ≤ 3) := by
      intro hcontra
      apply hdots
      simp only [Bool.and_eq_true, decide_eq_true_eq]
      omega
    constructor
    · intro hfalse
      cases hfalse
    · rintro ⟨hcond, -⟩
      exact absurd hcond hd

/-- C4 counterexample: the validator accepts a domain followed by one
trailing newline, which the dots-plus-grammar condition of the claim condition rejects. -/
theorem c4_counterexample :
    pyValid ("gmail.com".data ++ ['\n']) = true ∧
      ¬ claimValid ("gmail.com".data ++ ['\n']) := by
  constructor
  · decide
  · decide

/-- C5 (amended): for every nonempty sequence of input strings, the
normalized censoring set holds exactly the single characters occurring in
any of the inputs — multi-character strings are decomposed, never kept as
tokens. (The empty sequence instead falls back to the default asterisk; see
the counterexample.) -/
theorem c5_decomposition (args : List (List Char)) (h : args ≠ []) :
    ∀ ch : Char, ch ∈ changeCensoringChars args ↔ ∃ l ∈ args, ch ∈ l := by
  intro ch
  have hne : args.isEmpty = false := by
    cases args
    · exact absurd rfl h
    · rfl
  simp [changeCensoringChars, hne, List.mem_dedup, List.mem_flatten]

/-- Witness for C5 (amended): normalizing the inputs ab and c — the
character a is in the censoring set because it occurs in ab. -/
theorem c5_decomposition_witness :
    (["ab".data, "c".data] ≠ ([] : List (List Char))) ∧
    ('a' ∈ changeCensoringChars ["ab".data, "c".data] ↔
      ∃ l ∈ ["ab".data, "c".data], 'a' ∈ l) :=
  ⟨by decide, c5_decomposition ["ab".data, "c".data] (by decide) 'a'⟩

/-- C5 counterexample: normalizing the empty sequence of inputs yields the
default set holding the asterisk, while the claimed "set of characters
occurring in any input" is empty. -/
theorem c5_counterexample :
    changeCensoringChars [] = ['*'] ∧ ¬ ∃ l ∈ ([] : List (List Char)), '*' ∈ l := by
  constructor
  · rfl
  · simp

/-- C9 (amended): `loads` selects the JSON-array parse exactly when the raw,
untrimmed content starts with the opening bracket; any other first
character — including leading whitespace before a bracket — selects
newline splitting. -/
theorem c9_loads_mode (s : List Char) :
    (s.headD ' ' = '[' → loadsParse s = jsonLoadsStrArray s) ∧
    (s.headD ' ' ≠ '[' → loadsParse s = .ok (splitChar '\n' s)) := by
  constructor
  · intro h
    unfold loadsParse
    rw [if_pos h]
  · intro h
    unfold loadsParse
    rw [if_neg h]

/-- Witness for C9 (amended): a bracket-first content goes through the JSON
parse, a plain two-line content is split on newlines. -/
theorem c9_loads_mode_witness :
    (("[\"a\"]".data).headD ' ' = '[' ∧
      loadsParse ("[\"a\"]".data) = jsonLoadsStrArray ("[\"a\"]".data)) ∧
    (("a\nb".data).headD ' ' ≠ '[' ∧
      loadsParse ("a\nb".data) = .ok (splitChar '\n' ("a\nb".data))) :=
  ⟨⟨by decide, (c9_loads_mode ("[\"a\"]".data)).1 (by decide)⟩,
    ⟨by decide, (c9_loads_mode ("a\nb".data)).2 (by decide)⟩⟩

/-- C9 counterexample: content whose bracket is preceded by one space is
fed to the newline splitter and comes back as a single raw line, while the
trimmed detection of the claim would have `json.loads` parse it (and `json.loads`
itself accepts the leading whitespace) into the one domain gmail.com. -/
theorem c9_counterexample :
    loadsParse (" [\"gmail.com\"]".data) = .ok [" [\"gmail.com\"]".data] ∧
    jsonLoadsStrArray (" [\"gmail.com\"]".data) = .ok ["gmail.com".data] ∧
    [" [\"gmail.com\"]".data] ≠ ["gmail.com".data] := by
  refine ⟨by decide, by decide, by decide⟩

theorem exceptIsErr_bind {α β : Type} (x : Except PyErr α) (f : α → Except PyErr β)
    (h : ∀ a, exceptIsErr (f a) = true) : exceptIsErr (x.bind f) = true := by
  cases x with
  | error e => rfl
  | ok a => exact h a

/-- C2: for every non-None domains argument the construction raises a
`TypeError`: `__post_init__` reaches the call
`self.change_censoring_chars(censoring_chars=...)`, whose keyword argument
name matches only the var-positional parameter, which CPython
binding rejects. Consequently `loads`, `load`, `load_default` and the
module-level `match` never return normally (they raise this `TypeError`, or
for `loads` possibly a `JSONDecodeError` first). -/
theorem c2_construction_always_raises :
    (∀ (ds : List (Sum (List Char) SingleDomain)) (cc : Option (List (List Char)))
      (keep : Bool),
      mkDomainFinder (some ds) cc keep =
        .error (.typeError
          "change_censoring_chars got an unexpected keyword argument censoring_chars")) ∧
    (∀ (s : List Char) (cc : List (List Char)),
      exceptIsErr (DomainFinder.loads s cc) = true) ∧
    (∀ (content : List Char) (cc : List (List Char)),
      exceptIsErr (DomainFinder.load content cc) = true) ∧
    (∀ (content : List Char) (cc : List (List Char)),
      exceptIsErr (DomainFinder.load_default content cc) = true) ∧
    (∀ (content q : List Char) (cc : List (List Char)),
      exceptIsErr (moduleMatch content q cc) = true) := by
  have hmk : ∀ (ds : List (Sum (List Char) SingleDomain)) (cc : Option (List (List Char)))
      (keep : Bool),
      mkDomainFinder (some ds) cc keep =
        .error (.typeError
          "change_censoring_chars got an unexpected keyword argument censoring_chars") := by
    intro ds cc keep
    rfl
  have hloads : ∀ (s : List Char) (cc : List (List Char)),
      exceptIsErr (DomainFinder.loads s cc) = true := by
    intro s cc
    unfold DomainFinder.loads
    apply exceptIsErr_bind
    intro datas
    rw [hmk]
    rfl
  refine ⟨hmk, hloads, fun content cc => hloads content cc, fun content cc => hloads content cc, ?_⟩
  intro content q cc
  unfold moduleMatch
  have h := hloads content cc
  unfold DomainFinder.load_default DomainFinder.load
  cases hx : DomainFinder.loads content cc with
  | error e => rfl
  | ok df =>
    unfold DomainFinder.loads at h hx
    rw [hx] at h
    cases h

/-- C8: construction fails for a missing catalog (`domains=None` raises the
dedicated `ValueError`) and for an empty catalog (`domains=[]` also never
constructs — it reaches the censoring-chars call and raises its
`TypeError`; there is no dedicated emptiness check). -/
theorem c8_missing_or_empty_catalog (cc : Option (List (List Char))) (keep : Bool) :
    mkDomainFinder none cc keep =
      .error (.valueError "domains argument in DomainFinder must be a list of str") ∧
    exceptIsErr (mkDomainFinder (some []) cc keep) = true :=
  ⟨rfl, rfl⟩

/-- C10: `SingleDomain(d, valid=True)` skips grammar validation and is
marked valid for every string d; the keep-only-valid filter of
`__post_init__` retains such an entry even when its string fails the
grammar (concretely, nodotdomain); and the filter guarantees only that
every retained entry has its stored `valid` field is `True`. -/
theorem c10_forced_valid (d : List Char) :
    ((mkSingleDomain d (some true)).valid = true) ∧
    (pyValid "nodotdomain".data = false ∧
      postInitDomains [.inr (mkSingleDomain "nodotdomain".data (some true))] true =
        [mkSingleDomain "nodotdomain".data (some true)]) ∧
    (∀ (ds : List (Sum (List Char) SingleDomain)) (x : SingleDomain),
      x ∈ postInitDomains ds true → x.valid = true) := by
  refine ⟨rfl, ⟨by decide, by decide⟩, ?_⟩
  intro ds x hx
  simp only [postInitDomains, if_true] at hx
  exact (List.mem_filter.mp hx).2

/-- Witness for C10: the grammar-invalid nodotdomain entry, forced valid,
is retained by the filter and its stored valid field is true. -/
theorem c10_forced_valid_witness :
    (mkSingleDomain "nodotdomain".data (some true) ∈
      postInitDomains [.inr (mkSingleDomain "nodotdomain".data (some true))] true) ∧
    (mkSingleDomain "nodotdomain".data (some true)).valid = true :=
  ⟨by decide,
    (c10_forced_valid "nodotdomain".data).2.2
      [.inr (mkSingleDomain "nodotdomain".data (some true))]
      (mkSingleDomain "nodotdomain".data (some true)) (by decide)⟩

end Emdofi
